import Mathlib

/-!
Verification of the alpha-beta game-tree searcher and tree generator of
`src/main.py` against its specification.

The embedding is shallow and executable:

* `Node`/`NodeList` mirror the Python classes `Node` (internal, with a
  `name` and an ordered `child_nodes` list) and `LeafNode` (with a `name`
  and an integer `eval`).  The children are a bespoke list type so that
  all recursions over trees are structural and reduce by `rfl`/`decide`.
* `genTree` mirrors `gen_tree` (src/main.py lines 36-72) for a concrete
  `leaf_values` sequence.  The Python `del leaf_values[0]` on an empty
  list raises `IndexError`; this is the exhaustion failure, modelled as
  `Except.error (GenErr.exhaustion rest)` where `rest` is the state of
  the (destructively drained) sequence at the moment of failure.  The
  `leaf_values is None` random branch is not modelled: every claim under
  study concerns a supplied concrete sequence.
* `alphaBeta`/`abMax`/`abMin` mirror `alpha_beta` (lines 94-160), value
  behaviour only; `alphaBetaT` is the same recursion instrumented with
  the trace events the `verbose` prints emit, and `abMaxN`/`abMinN` is
  the same loop instrumented with the number of children on which a
  recursive call is made.
* `minimax` is the comparison point for the refinement claim; it is
  modelled from the spec's words ("exhaustive min/max evaluation with no
  pruning"), not from the source.
-/

set_option linter.unusedVariables false

namespace AlphaBeta

/-- Sentinel lower bound, src/main.py line 10: `MIN_VALUE = -(2**31)`. -/
def MIN_VALUE : Int := -(2 ^ 31)

/-- Sentinel upper bound, src/main.py line 11: `MAX_VALUE = 2**31`. -/
def MAX_VALUE : Int := 2 ^ 31

mutual
/-- Tree nodes, mirroring the Python classes `Node` (internal node with
`name` and ordered `child_nodes`) and `LeafNode` (with `name` and integer
`eval`), src/main.py lines 14-33. -/
inductive Node where
  | leaf (name : String) (eval : Int) : Node
  | node (name : String) (child_nodes : NodeList) : Node
deriving DecidableEq
/-- Ordered list of child nodes (the Python `child_nodes` list). -/
inductive NodeList where
  | nil : NodeList
  | cons (c : Node) (cs : NodeList) : NodeList
deriving DecidableEq
end

/-- View a `NodeList` as an ordinary `List`. -/
def toList : NodeList → List Node
  | .nil => []
  | .cons c cs => c :: toList cs

/-- Induction principle for `NodeList` alone (the automatically generated
recursor of the mutual inductive family has two motives). -/
def NodeList.inductionOn {motive : NodeList → Prop}
    (nil : motive .nil) (cons : ∀ c cs, motive cs → motive (.cons c cs)) :
    ∀ cs, motive cs
  | .nil => nil
  | .cons c cs => cons c cs (NodeList.inductionOn nil cons cs)

/-- Failure of tree generation: a leaf was required but the supplied
`leaf_values` sequence was empty (the Python `leaf_values[0]` /
`del leaf_values[0]` raise `IndexError`).  The payload is the state of the
destructively drained sequence at the moment of failure. -/
inductive GenErr where
  | exhaustion (remaining : List Int) : GenErr
deriving DecidableEq

/-- Child-name suffix, src/main.py lines 61-63: `chr(ord('a') + i)`,
upper-cased when the current node's `is_max` is false. -/
def childSuffix (is_max : Bool) (i : Nat) : String :=
  let c := Char.ofNat (97 + i)
  String.singleton (if is_max then c else c.toUpper)

/-- The child loop of `gen_tree`, src/main.py lines 60-70: for
`i = 0, 1, ...` (with `k` iterations left) generate a child named
`name ++ "-" ++ childSuffix is_max i` with the generator `gen`, threading
the leaf-value sequence left to right and collecting children in order.
`gen` is instantiated with `gen_tree` at the decreased depth and flipped
`is_max`. -/
def genChildren (gen : String → List Int → Except GenErr (Node × List Int))
    (is_max : Bool) (name : String) : Nat → Nat → List Int → Except GenErr (NodeList × List Int)
  | _, 0, vals => .ok (.nil, vals)
  | i, Nat.succ k, vals =>
    match gen (name ++ "-" ++ childSuffix is_max i) vals with
    | .error e => .error e
    | .ok (c, vals1) =>
      match genChildren gen is_max name (i + 1) k vals1 with
      | .error e => .error e
      | .ok (cs, vals2) => .ok (.cons c cs, vals2)

/-- `gen_tree`, src/main.py lines 36-72, for a supplied (non-`None`)
`leaf_values` sequence.  At `depth == 0` the front value is consumed
(`val = leaf_values[0]; del leaf_values[0]`), failing with exhaustion when
the sequence is empty; otherwise a `Node` is created and `br_factor`
children are generated recursively with decreased depth and flipped
`is_max`.  The result pairs the generated tree with the remaining values
(the state of the shared, destructively drained Python list). -/
def genTree : Nat → Bool → Nat → String → List Int → Except GenErr (Node × List Int)
  | 0, _, _, name, vals =>
    (match vals with
    | [] => .error (.exhaustion [])
    | v :: rest => .ok (.leaf name v, rest))
  | Nat.succ d, is_max, br_factor, name, vals =>
    match genChildren (fun nm vs => genTree d (!is_max) br_factor nm vs) is_max name 0 br_factor vals with
    | .error e => .error e
    | .ok (cs, rest) => .ok (.node name cs, rest)

/-- Indentation helper, src/main.py lines 90-91: appends two spaces. -/
def indent (s : String) : String := s ++ "  "

mutual
/-- Value computed by `alpha_beta`, src/main.py lines 94-160 (the prints
are modelled separately by `alphaBetaT`).  A leaf returns its `eval`; a
maximizing internal node runs the children loop `abMax` from
`v = MIN_VALUE`, a minimizing one runs `abMin` from `v = MAX_VALUE`. -/
def alphaBeta : Node → Int → Int → Bool → Int
  | .leaf _ e, _, _, _ => e
  | .node _ cs, alpha, beta, true => abMax cs alpha beta MIN_VALUE
  | .node _ cs, alpha, beta, false => abMin cs alpha beta MAX_VALUE
/-- Children loop of the maximizing branch, src/main.py lines 120-135:
`ab = alpha_beta(ch, alpha, beta, False, ...)`; `v = max(v, ab)`;
`if v > alpha: alpha = v`; `if beta <= alpha: break`. -/
def abMax : NodeList → Int → Int → Int → Int
  | .nil, _, _, v => v
  | .cons c cs, alpha, beta, v =>
    let ab := alphaBeta c alpha beta false
    let v' := max v ab
    let alpha' := if alpha < v' then v' else alpha
    if beta ≤ alpha' then v' else abMax cs alpha' beta v'
/-- Children loop of the minimizing branch, src/main.py lines 142-157:
`ab = alpha_beta(ch, alpha, beta, True, ...)`; `v = min(ab, v)`;
`if v < beta: beta = v`; `if beta <= alpha: break`. -/
def abMin : NodeList → Int → Int → Int → Int
  | .nil, _, _, v => v
  | .cons c cs, alpha, beta, v =>
    let ab := alphaBeta c alpha beta true
    let v' := min ab v
    let beta' := if v' < beta then v' else beta
    if beta' ≤ alpha then v' else abMin cs alpha beta' v'
end

/-- Root call `alpha_beta_root`, src/main.py lines 163-170:
`alpha_beta(node, MIN_VALUE, MAX_VALUE, is_max, '')`. -/
def alphaBetaRoot (node : Node) (is_max : Bool) : Int :=
  alphaBeta node MIN_VALUE MAX_VALUE is_max

mutual
/-- Modelled from the spec: the "exhaustive min/max evaluation (no
pruning)" against which `search_root` is compared.  A maximizing node
takes the maximum of its children's values starting from `MIN_VALUE`, a
minimizing node the minimum starting from `MAX_VALUE`, alternating at
each level; a leaf evaluates to its stored value. -/
def minimax : Node → Bool → Int
  | .leaf _ e, _ => e
  | .node _ cs, true => mmMax cs
  | .node _ cs, false => mmMin cs
/-- Maximum of the minimizing children's values, from `MIN_VALUE`. -/
def mmMax : NodeList → Int
  | .nil => MIN_VALUE
  | .cons c cs => max (minimax c false) (mmMax cs)
/-- Minimum of the maximizing children's values, from `MAX_VALUE`. -/
def mmMin : NodeList → Int
  | .nil => MAX_VALUE
  | .cons c cs => min (minimax c true) (mmMin cs)
end

mutual
/-- Evaluations of the leaves of a tree in pre-order, left-to-right. -/
def leafVals : Node → List Int
  | .leaf _ e => [e]
  | .node _ cs => leafValsL cs
/-- Concatenated leaf evaluations of a list of trees, left to right. -/
def leafValsL : NodeList → List Int
  | .nil => []
  | .cons c cs => leafVals c ++ leafValsL cs
end

/-- Number of leaves of a tree. -/
def leafCount (t : Node) : Nat := (leafVals t).length

mutual
/-- Shape predicate: `fullTree B t d` holds when every leaf of `t` lies at
depth exactly `d` below `t` and every internal node at depth `< d` has
exactly `B` children (so internal nodes occur exactly at depths `< d`). -/
def fullTree (B : Nat) : Node → Nat → Bool
  | .leaf _ _, d => d == 0
  | .node _ _, 0 => false
  | .node _ cs, Nat.succ d => ((toList cs).length == B) && fullTreeL B cs d
/-- All trees in the list are full of depth `d` with branching `B`. -/
def fullTreeL (B : Nat) : NodeList → Nat → Bool
  | .nil, _ => true
  | .cons c cs, d => fullTree B c d && fullTreeL B cs d
end

mutual
/-- All leaf evaluations lie in the closed interval
`[MIN_VALUE, MAX_VALUE]`. -/
def leavesBounded : Node → Bool
  | .leaf _ e => decide (MIN_VALUE ≤ e) && decide (e ≤ MAX_VALUE)
  | .node _ cs => leavesBoundedL cs
/-- List version of `leavesBounded`. -/
def leavesBoundedL : NodeList → Bool
  | .nil => true
  | .cons c cs => leavesBounded c && leavesBoundedL cs
end

mutual
/-- All leaf evaluations lie strictly between `MIN_VALUE` and
`MAX_VALUE`. -/
def leavesStrict : Node → Bool
  | .leaf _ e => decide (MIN_VALUE < e) && decide (e < MAX_VALUE)
  | .node _ cs => leavesStrictL cs
/-- List version of `leavesStrict`. -/
def leavesStrictL : NodeList → Bool
  | .nil => true
  | .cons c cs => leavesStrict c && leavesStrictL cs
end

mutual
/-- Well-formed tree: every internal node has at least one child. -/
def wellFormed : Node → Bool
  | .leaf _ _ => true
  | .node _ .nil => false
  | .node _ (.cons c cs) => wellFormed c && wellFormedL cs
/-- List version of `wellFormed`. -/
def wellFormedL : NodeList → Bool
  | .nil => true
  | .cons c cs => wellFormed c && wellFormedL cs
end

/-- One uninterrupted iteration of the maximizing children loop on the
state `(alpha, v)`: the bound updates of src/main.py lines 121-128 without
the `break`. -/
def stepMax (beta : Int) (s : Int × Int) (c : Node) : Int × Int :=
  let ab := alphaBeta c s.1 beta false
  let v' := max s.2 ab
  ((if s.1 < v' then v' else s.1), v')

/-- One uninterrupted iteration of the minimizing children loop on the
state `(beta, v)`: the bound updates of src/main.py lines 143-150 without
the `break`. -/
def stepMin (alpha : Int) (s : Int × Int) (c : Node) : Int × Int :=
  let ab := alphaBeta c alpha s.1 true
  let v' := min ab s.2
  ((if v' < s.1 then v' else s.1), v')

/-- The maximizing children loop instrumented with the number of children
on which a recursive `alpha_beta` call is made (same control flow as
`abMax`, src/main.py lines 120-135). -/
def abMaxN : NodeList → Int → Int → Int → Int × Nat
  | .nil, _, _, v => (v, 0)
  | .cons c cs, alpha, beta, v =>
    let ab := alphaBeta c alpha beta false
    let v' := max v ab
    let alpha' := if alpha < v' then v' else alpha
    if beta ≤ alpha' then (v', 1)
    else
      let r := abMaxN cs alpha' beta v'
      (r.1, r.2 + 1)

/-- The minimizing children loop instrumented with the number of children
on which a recursive `alpha_beta` call is made (same control flow as
`abMin`, src/main.py lines 142-157). -/
def abMinN : NodeList → Int → Int → Int → Int × Nat
  | .nil, _, _, v => (v, 0)
  | .cons c cs, alpha, beta, v =>
    let ab := alphaBeta c alpha beta true
    let v' := min ab v
    let beta' := if v' < beta then v' else beta
    if beta' ≤ alpha then (v', 1)
    else
      let r := abMinN cs alpha beta' v'
      (r.1, r.2 + 1)

/-- Trace events emitted by the `verbose` prints of `alpha_beta`; each
constructor records the values the corresponding `print` interpolates
(src/main.py lines 110-111, 114-116, 125-127, 131-132, 136-137, 147-149,
155-156, 158-159). -/
inductive TraceEvent where
  | leafEval (spaces name : String) (eval : Int) : TraceEvent
  | enter (spaces name : String) (alpha beta : Int) (is_max : Bool) : TraceEvent
  | updateAlpha (spaces name : String) (alpha v : Int) : TraceEvent
  | betaCut (spaces : String) (alpha beta : Int) : TraceEvent
  | updateBeta (spaces name : String) (beta v : Int) : TraceEvent
  | alphaCut (spaces : String) (alpha beta : Int) : TraceEvent
  | ret (spaces name : String) (v : Int) : TraceEvent
deriving DecidableEq

mutual
/-- `alpha_beta` instrumented with its trace: returns the value together
with the ordered list of events the prints would emit.  Faithful to the
source: the recursive calls on children pass `indent spaces` and omit
`verbose`, so children always trace with the default `verbose = True`
(src/main.py lines 121 and 143); `verbose = false` only silences the
current node's own prints. -/
def alphaBetaT : Node → Int → Int → Bool → String → Bool → Int × List TraceEvent
  | .leaf nm e, _, _, _, spaces, verbose =>
    (e, if verbose then [.leafEval spaces nm e] else [])
  | .node nm cs, alpha, beta, true, spaces, verbose =>
    let enterEv : List TraceEvent := if verbose then [.enter spaces nm alpha beta true] else []
    let r := abMaxT cs alpha beta MIN_VALUE spaces verbose nm
    (r.1, enterEv ++ r.2 ++ (if verbose then [.ret spaces nm r.1] else []))
  | .node nm cs, alpha, beta, false, spaces, verbose =>
    let enterEv : List TraceEvent := if verbose then [.enter spaces nm alpha beta false] else []
    let r := abMinT cs alpha beta MAX_VALUE spaces verbose nm
    (r.1, enterEv ++ r.2 ++ (if verbose then [.ret spaces nm r.1] else []))
/-- Traced maximizing children loop, src/main.py lines 120-135. -/
def abMaxT : NodeList → Int → Int → Int → String → Bool → String → Int × List TraceEvent
  | .nil, _, _, v, _, _, _ => (v, [])
  | .cons c cs, alpha, beta, v, spaces, verbose, nm =>
    let rc := alphaBetaT c alpha beta false (indent spaces) true
    let v' := max v rc.1
    let updEv : List TraceEvent :=
      if alpha < v' then (if verbose then [.updateAlpha spaces nm alpha v'] else []) else []
    let alpha' := if alpha < v' then v' else alpha
    if beta ≤ alpha' then
      (v', rc.2 ++ updEv ++ (if verbose then [.betaCut spaces alpha' beta] else []))
    else
      let r := abMaxT cs alpha' beta v' spaces verbose nm
      (r.1, rc.2 ++ updEv ++ r.2)
/-- Traced minimizing children loop, src/main.py lines 142-157.  The
`updateBeta` event carries `alpha` as its printed old value, exactly as
the source's format call does (line 148 passes `beta=alpha`). -/
def abMinT : NodeList → Int → Int → Int → String → Bool → String → Int × List TraceEvent
  | .nil, _, _, v, _, _, _ => (v, [])
  | .cons c cs, alpha, beta, v, spaces, verbose, nm =>
    let rc := alphaBetaT c alpha beta true (indent spaces) true
    let v' := min rc.1 v
    let updEv : List TraceEvent :=
      if v' < beta then (if verbose then [.updateBeta spaces nm alpha v'] else []) else []
    let beta' := if v' < beta then v' else beta
    if beta' ≤ alpha then
      (v', rc.2 ++ updEv ++ (if verbose then [.alphaCut spaces alpha beta'] else []))
    else
      let r := abMinT cs alpha beta' v' spaces verbose nm
      (r.1, rc.2 ++ updEv ++ r.2)
end

/-- Root call with tracing, as `alpha_beta_root` performs it: bounds
`MIN_VALUE`/`MAX_VALUE`, empty indentation, default `verbose = True`. -/
def alphaBetaRootT (node : Node) (is_max : Bool) : Int × List TraceEvent :=
  alphaBetaT node MIN_VALUE MAX_VALUE is_max "" true

/-- Evaluations of the leaves actually visited during a traced search, in
visit order (one `leafEval` event is emitted per evaluated leaf). -/
def visitedLeafEvals (tr : List TraceEvent) : List Int :=
  tr.filterMap fun ev =>
    match ev with
    | .leafEval _ _ e => some e
    | _ => none

/-! ### Basic structural lemmas -/

theorem sizeOf_lt_of_mem_toList :
    ∀ (cs : NodeList) (c : Node), c ∈ toList cs → sizeOf c < sizeOf cs := by
  intro cs
  induction cs using NodeList.inductionOn with
  | nil => intro c h; simp [toList] at h
  | cons c' cs ih =>
    intro c h
    simp only [toList, List.mem_cons] at h
    rcases h with h | h
    · subst h; simp; omega
    · have := ih c h; simp; omega

/-! ### Tree generation: consumption order -/

theorem genChildren_leafVals (gen : String → List Int → Except GenErr (Node × List Int))
    (hgen : ∀ nm vs c r, gen nm vs = .ok (c, r) → leafVals c ++ r = vs)
    (mx : Bool) (name : String) :
    ∀ (k i : Nat) (vals : List Int) (cs : NodeList) (rest : List Int),
      genChildren gen mx name i k vals = .ok (cs, rest) → leafValsL cs ++ rest = vals := by
  intro k
  induction k with
  | zero =>
    intro i vals cs rest h
    simp only [genChildren, Except.ok.injEq, Prod.mk.injEq] at h
    obtain ⟨h1, h2⟩ := h
    subst h1; subst h2
    simp [leafValsL]
  | succ k ih =>
    intro i vals cs rest h
    simp only [genChildren] at h
    split at h
    · exact absurd h (by simp)
    · rename_i c vals1 hg
      split at h
      · exact absurd h (by simp)
      · rename_i cs2 vals2 hgs
        simp only [Except.ok.injEq, Prod.mk.injEq] at h
        obtain ⟨h1, h2⟩ := h
        subst h1; subst h2
        have h3 := hgen _ _ _ _ hg
        have h4 := ih _ _ _ _ hgs
        simp only [leafValsL, List.append_assoc, h4, h3]

theorem genTree_leafVals :
    ∀ (d : Nat) (m : Bool) (B : Nat) (name : String) (vals : List Int) (t : Node)
      (rest : List Int), genTree d m B name vals = .ok (t, rest) → leafVals t ++ rest = vals := by
  intro d
  induction d with
  | zero =>
    intro m B name vals t rest h
    match vals with
    | [] => exact absurd h (by simp [genTree])
    | v :: vs =>
      simp only [genTree, Except.ok.injEq, Prod.mk.injEq] at h
      obtain ⟨h1, h2⟩ := h
      subst h1; subst h2
      simp [leafVals]
  | succ d ih =>
    intro m B name vals t rest h
    simp only [genTree] at h
    split at h
    · exact absurd h (by simp)
    · rename_i cs rest' hgs
      simp only [Except.ok.injEq, Prod.mk.injEq] at h
      obtain ⟨h1, h2⟩ := h
      subst h1; subst h2
      have := genChildren_leafVals (fun nm vs => genTree d (!m) B nm vs)
        (fun nm vs c r hc => ih (!m) B nm vs c r hc) m name B 0 vals cs rest' hgs
      simpa [leafVals] using this

/-! ### Tree generation: totality and shape -/

theorem genChildren_total (gen : String → List Int → Except GenErr (Node × List Int))
    (B N d : Nat) (mx : Bool) (name : String)
    (hgen : ∀ nm vs, N ≤ vs.length →
      ∃ c, gen nm vs = .ok (c, vs.drop N) ∧ (leafVals c).length = N ∧ fullTree B c d = true) :
    ∀ (k i : Nat) (vals : List Int), k * N ≤ vals.length →
      ∃ cs, genChildren gen mx name i k vals = .ok (cs, vals.drop (k * N)) ∧
        (leafValsL cs).length = k * N ∧ fullTreeL B cs d = true ∧ (toList cs).length = k := by
  intro k
  induction k with
  | zero =>
    intro i vals _
    exact ⟨.nil, by simp [genChildren], by simp [leafValsL], by simp [fullTreeL], by simp [toList]⟩
  | succ k ih =>
    intro i vals hlen
    have hsm : (k + 1) * N = k * N + N := by ring
    have hN : N ≤ vals.length := by omega
    obtain ⟨c, hc, hcn, hcf⟩ := hgen (name ++ "-" ++ childSuffix mx i) vals hN
    have hlen2 : k * N ≤ (vals.drop N).length := by
      simp only [List.length_drop]
      omega
    obtain ⟨cs, hcs, hcsn, hcsf, hcsl⟩ := ih (i + 1) (vals.drop N) hlen2
    refine ⟨.cons c cs, ?_, ?_, ?_, ?_⟩
    · simp only [genChildren, hc, hcs, List.drop_drop]
      have hd : N + k * N = (k + 1) * N := by ring
      rw [hd]
    · simp only [leafValsL, List.length_append, hcn, hcsn]
      ring
    · simp [fullTreeL, hcf, hcsf]
    · simp [toList, hcsl]

theorem genTree_total :
    ∀ (d B : Nat), 1 ≤ B → ∀ (m : Bool) (name : String) (vals : List Int),
      B ^ d ≤ vals.length →
      ∃ t, genTree d m B name vals = .ok (t, vals.drop (B ^ d)) ∧
        (leafVals t).length = B ^ d ∧ fullTree B t d = true := by
  intro d
  induction d with
  | zero =>
    intro B _ m name vals hlen
    simp only [pow_zero] at hlen ⊢
    match vals with
    | [] => simp at hlen
    | v :: vs => exact ⟨.leaf name v, by simp [genTree], by simp [leafVals], by simp [fullTree]⟩
  | succ d ih =>
    intro B hB m name vals hlen
    have hmul : B * B ^ d ≤ vals.length := by
      have : B ^ (d + 1) = B * B ^ d := by ring
      omega
    obtain ⟨cs, hcs, hcsn, hcsf, hcsl⟩ :=
      genChildren_total (fun nm vs => genTree d (!m) B nm vs) B (B ^ d) d m name
        (fun nm vs hv => by
          obtain ⟨t, h1, h2, h3⟩ := ih B hB (!m) nm vs hv
          exact ⟨t, h1, h2, h3⟩)
        B 0 vals hmul
    refine ⟨.node name cs, ?_, ?_, ?_⟩
    · simp only [genTree, hcs]
      have : B * (B ^ d) = B ^ (d + 1) := by ring
      rw [this]
    · have : B * B ^ d = B ^ (d + 1) := by ring
      simp only [leafVals, hcsn]
      omega
    · simp [fullTree, fullTreeL, hcsl, hcsf]

/-! ### Tree generation: exhaustion -/

theorem genChildren_exhaust (gen : String → List Int → Except GenErr (Node × List Int))
    (N : Nat) (mx : Bool) (name : String)
    (hgenOk : ∀ nm vs, N ≤ vs.length → ∃ c, gen nm vs = .ok (c, vs.drop N))
    (hgenErr : ∀ nm vs, vs.length < N → gen nm vs = .error (.exhaustion [])) :
    ∀ (k i : Nat) (vals : List Int), 1 ≤ k → vals.length < k * N →
      genChildren gen mx name i k vals = .error (.exhaustion []) := by
  intro k
  induction k with
  | zero => intro i vals h; omega
  | succ k ih =>
    intro i vals _ hlen
    have hsm : (k + 1) * N = k * N + N := by ring
    by_cases hN : N ≤ vals.length
    · obtain ⟨c, hc⟩ := hgenOk (name ++ "-" ++ childSuffix mx i) vals hN
      have hk : 1 ≤ k := by
        rcases Nat.eq_zero_or_pos k with h0 | h1
        · subst h0; omega
        · exact h1
      have hrest : (vals.drop N).length < k * N := by
        simp only [List.length_drop]
        omega
      simp only [genChildren, hc, ih (i + 1) (vals.drop N) hk hrest]
    · have := hgenErr (name ++ "-" ++ childSuffix mx i) vals (by omega)
      simp only [genChildren, this]

theorem genTree_exhaust :
    ∀ (d B : Nat), 1 ≤ B → ∀ (m : Bool) (name : String) (vals : List Int),
      vals.length < B ^ d → genTree d m B name vals = .error (.exhaustion []) := by
  intro d
  induction d with
  | zero =>
    intro B _ m name vals hlen
    simp only [pow_zero] at hlen
    match vals with
    | [] => simp [genTree]
    | v :: vs => simp at hlen
  | succ d ih =>
    intro B hB m name vals hlen
    have hmul : vals.length < B * B ^ d := by
      have : B ^ (d + 1) = B * B ^ d := by ring
      omega
    have herr := genChildren_exhaust (fun nm vs => genTree d (!m) B nm vs) (B ^ d) m name
      (fun nm vs hv => by
        obtain ⟨t, h1, _, _⟩ := genTree_total d B hB (!m) nm vs hv
        exact ⟨t, h1⟩)
      (fun nm vs hv => ih B hB (!m) nm vs hv)
      B 0 vals hB hmul
    simp only [genTree, herr]

/-! ### Claims C3-C7 -/

/-- C3: for every depth `D ≥ 0`, branching factor `B ≥ 1` and supplied
leaf-value sequence of length at least `B ^ D`, `gen_tree` removes exactly
`B ^ D` values from the sequence (the returned remainder is
`leaf_values.drop (B ^ D)`) and returns a tree with exactly `B ^ D`
leaves, all at depth exactly `D`, every internal node at depth `< D`
having exactly `B` children (`fullTree`). -/
theorem C3_gen_tree_shape (D B : Nat) (is_max : Bool) (name : String)
    (leaf_values : List Int) (hB : 1 ≤ B) (hlen : B ^ D ≤ leaf_values.length) :
    ∃ t, genTree D is_max B name leaf_values = .ok (t, leaf_values.drop (B ^ D)) ∧
      leafCount t = B ^ D ∧ fullTree B t D = true :=
  genTree_total D B hB is_max name leaf_values hlen

/-- Witness for C3 at `D = 1`, `B = 2`, `leaf_values = [7, 8, 9]`. -/
theorem C3_witness :
    ∃ t, genTree 1 true 2 "w" [7, 8, 9] = .ok (t, List.drop (2 ^ 1) [7, 8, 9]) ∧
      leafCount t = 2 ^ 1 ∧ fullTree 2 t 1 = true :=
  C3_gen_tree_shape 1 2 true "w" [7, 8, 9] (by decide) (by decide)

/-- C4: generation from a concrete sequence is deterministic (in this
embedding `genTree` is a pure function, so equal sequences literally give
equal trees) and pre-order-stable: the pre-order, left-to-right list of
leaf evaluations of the generated tree, followed by the returned
remainder, is exactly the original sequence — so the i-th leaf created in
pre-order receives the i-th value originally in the sequence. -/
theorem C4_gen_tree_preorder (D : Nat) (is_max : Bool) (B : Nat) (name : String)
    (leaf_values : List Int) (t : Node) (rest : List Int)
    (h : genTree D is_max B name leaf_values = .ok (t, rest)) :
    leafVals t ++ rest = leaf_values :=
  genTree_leafVals D is_max B name leaf_values t rest h

/-- Witness for C4 at `D = 1`, `B = 2`, `leaf_values = [4, 6]`. -/
theorem C4_witness :
    leafVals (.node "q" (.cons (.leaf "q-A" 4) (.cons (.leaf "q-B" 6) .nil))) ++ [] = [4, 6] :=
  C4_gen_tree_preorder 1 false 2 "q" [4, 6]
    (.node "q" (.cons (.leaf "q-A" 4) (.cons (.leaf "q-B" 6) .nil))) [] rfl

/-- C5: whenever a leaf must be created but the supplied sequence is
empty, generation fails with the exhaustion error (in the source,
`leaf_values[0]` on the empty list raises `IndexError`; the error payload
records the drained sequence, empty at the failure).  In general a
sequence shorter than `B ^ D` exhausts; in particular
`gen_tree(depth 2, branching 2, [1, 2, 3])` fails after consuming all
three supplied values (the sequence state at failure is `[]`). -/
theorem C5_gen_tree_exhaustion :
    (∀ (D B : Nat) (is_max : Bool) (name : String) (leaf_values : List Int),
      1 ≤ B → leaf_values.length < B ^ D →
      genTree D is_max B name leaf_values = .error (.exhaustion [])) ∧
    genTree 2 true 2 "t" [1, 2, 3] = .error (.exhaustion []) :=
  ⟨fun D B is_max name leaf_values hB hlen =>
    genTree_exhaust D B hB is_max name leaf_values hlen, rfl⟩

/-- Witness for C5's general part at `D = 0`, `B = 3`, empty sequence. -/
theorem C5_witness : genTree 0 true 3 "w" ([] : List Int) = .error (.exhaustion []) :=
  C5_gen_tree_exhaustion.1 0 3 true "w" [] (by decide) (by decide)

/-- C6 is refuted as stated: `gen_tree` called with
`branching_factor = 0 ≤ 0` (at depth 1, on `[5]`) does not fail with an
invalid-parameter error — it returns a childless internal node and
consumes nothing. -/
theorem C6_counterexample : genTree 1 true 0 "r" [5] = .ok (.node "r" .nil, [5]) := rfl

/-- C6 amended: `gen_tree` performs no parameter validation; called with
`branching_factor = 0` and positive depth it succeeds, returning a
childless internal node and consuming no leaf values (rather than failing
with an invalid-parameter error). -/
theorem C6_no_validation (d : Nat) (is_max : Bool) (name : String) (leaf_values : List Int) :
    genTree (d + 1) is_max 0 name leaf_values = .ok (.node name .nil, leaf_values) := by
  simp [genTree, genChildren]

/-- C7 is refuted as stated: on an internal node with zero children,
`alpha_beta` does not fail with a malformed-tree error — called with the
root bounds it returns exactly the sentinel bound (`MIN_VALUE` when
maximizing, `MAX_VALUE` when minimizing) as the node's value. -/
theorem C7_counterexample :
    alphaBeta (.node "m" .nil) MIN_VALUE MAX_VALUE true = MIN_VALUE ∧
    alphaBeta (.node "m" .nil) MIN_VALUE MAX_VALUE false = MAX_VALUE :=
  ⟨rfl, rfl⟩

/-- C7 amended: when `alpha_beta` reaches an internal node with zero
children it does not fail; for any bounds it silently returns the
sentinel `MIN_VALUE` at a maximizing node and `MAX_VALUE` at a minimizing
node. -/
theorem C7_childless_sentinel (name : String) (alpha beta : Int) :
    alphaBeta (.node name .nil) alpha beta true = MIN_VALUE ∧
    alphaBeta (.node name .nil) alpha beta false = MAX_VALUE :=
  ⟨rfl, rfl⟩

/-! ### The instrumented loops agree with the plain ones -/

theorem abMaxN_fst :
    ∀ (cs : NodeList) (alpha beta v : Int), (abMaxN cs alpha beta v).1 = abMax cs alpha beta v := by
  intro cs
  induction cs using NodeList.inductionOn with
  | nil => intro alpha beta v; rfl
  | cons c cs ih =>
    intro alpha beta v
    simp only [abMaxN, abMax]
    split
    · split
      · rfl
      · exact ih _ _ _
    · split
      · rfl
      · exact ih _ _ _

theorem abMinN_fst :
    ∀ (cs : NodeList) (alpha beta v : Int), (abMinN cs alpha beta v).1 = abMin cs alpha beta v := by
  intro cs
  induction cs using NodeList.inductionOn with
  | nil => intro alpha beta v; rfl
  | cons c cs ih =>
    intro alpha beta v
    simp only [abMinN, abMin]
    split
    · split
      · rfl
      · exact ih _ _ _
    · split
      · rfl
      · exact ih _ _ _

/-! ### Claim C2: a cut-off stops the children loop -/

theorem abMaxN_stops (cs : NodeList) :
    ∀ (alpha beta v : Int) (k : Nat), 1 ≤ k → k ≤ (toList cs).length →
      beta ≤ (List.foldl (stepMax beta) (alpha, v) ((toList cs).take k)).1 →
      (abMaxN cs alpha beta v).2 ≤ k := by
  induction cs using NodeList.inductionOn with
  | nil => intro alpha beta v k hk hkl _; simp [toList] at hkl; omega
  | cons c cs ih =>
    intro alpha beta v k hk hkl hcut
    match k, hk with
    | Nat.succ j, _ =>
      simp only [toList, List.take_succ_cons, List.foldl_cons] at hcut
      set ab := alphaBeta c alpha beta false with hab
      set v' := max v ab with hv'
      set a' := (if alpha < v' then v' else alpha) with ha'
      have hstep : stepMax beta (alpha, v) c = (a', v') := rfl
      have hunfold : abMaxN (.cons c cs) alpha beta v =
          if beta ≤ a' then (v', 1)
          else ((abMaxN cs a' beta v').1, (abMaxN cs a' beta v').2 + 1) := rfl
      rw [hunfold]
      by_cases hcond : beta ≤ a'
      · simp only [if_pos hcond]
        omega
      · simp only [if_neg hcond]
        rw [hstep] at hcut
        match j with
        | 0 =>
          simp only [List.take_zero, List.foldl_nil] at hcut
          exact absurd hcut hcond
        | Nat.succ i =>
          have hj : (abMaxN cs a' beta v').2 ≤ i + 1 :=
            ih a' beta v' (i + 1) (by omega) (by simp [toList] at hkl; omega) hcut
          show (abMaxN cs a' beta v').2 + 1 ≤ i + 1 + 1
          omega

theorem abMinN_stops (cs : NodeList) :
    ∀ (alpha beta v : Int) (k : Nat), 1 ≤ k → k ≤ (toList cs).length →
      (List.foldl (stepMin alpha) (beta, v) ((toList cs).take k)).1 ≤ alpha →
      (abMinN cs alpha beta v).2 ≤ k := by
  induction cs using NodeList.inductionOn with
  | nil => intro alpha beta v k hk hkl _; simp [toList] at hkl; omega
  | cons c cs ih =>
    intro alpha beta v k hk hkl hcut
    match k, hk with
    | Nat.succ j, _ =>
      simp only [toList, List.take_succ_cons, List.foldl_cons] at hcut
      set ab := alphaBeta c alpha beta true with hab
      set v' := min ab v with hv'
      set b' := (if v' < beta then v' else beta) with hb'
      have hstep : stepMin alpha (beta, v) c = (b', v') := rfl
      have hunfold : abMinN (.cons c cs) alpha beta v =
          if b' ≤ alpha then (v', 1)
          else ((abMinN cs alpha b' v').1, (abMinN cs alpha b' v').2 + 1) := rfl
      rw [hunfold]
      by_cases hcond : b' ≤ alpha
      · simp only [if_pos hcond]
        omega
      · simp only [if_neg hcond]
        rw [hstep] at hcut
        match j with
        | 0 =>
          simp only [List.take_zero, List.foldl_nil] at hcut
          exact absurd hcut hcond
        | Nat.succ i =>
          have hj : (abMinN cs alpha b' v').2 ≤ i + 1 :=
            ih alpha b' v' (i + 1) (by omega) (by simp [toList] at hkl; omega) hcut
          show (abMinN cs alpha b' v').2 + 1 ≤ i + 1 + 1
          omega

/-- C2: in `alpha_beta`, at any node, once `beta <= alpha` holds after
processing a child, no later sibling is ever evaluated.  `abMaxN`/`abMinN`
run the source's children loops counting the children on which a
recursive `alpha_beta` call is made (their values agree with
`abMax`/`abMin`, hence with `alphaBeta`); `stepMax`/`stepMin` perform the
loop's bound updates with no `break`.  If after the first `k ≥ 1`
children the maximizing state satisfies `beta ≤ alpha` (resp. the
minimizing state `beta ≤ alpha`), then at most the first `k` children are
ever evaluated: the loop stops at the first such child. -/
theorem C2_cutoff_stops_loop (cs : NodeList) (alpha beta v : Int) (k : Nat)
    (hk : 1 ≤ k) (hkl : k ≤ (toList cs).length) :
    ((abMaxN cs alpha beta v).1 = abMax cs alpha beta v ∧
      (beta ≤ (List.foldl (stepMax beta) (alpha, v) ((toList cs).take k)).1 →
        (abMaxN cs alpha beta v).2 ≤ k)) ∧
    ((abMinN cs alpha beta v).1 = abMin cs alpha beta v ∧
      ((List.foldl (stepMin alpha) (beta, v) ((toList cs).take k)).1 ≤ alpha →
        (abMinN cs alpha beta v).2 ≤ k)) :=
  ⟨⟨abMaxN_fst cs alpha beta v, fun h => abMaxN_stops cs alpha beta v k hk hkl h⟩,
    ⟨abMinN_fst cs alpha beta v, fun h => abMinN_stops cs alpha beta v k hk hkl h⟩⟩

/-- Witness for C2: two leaf children `[5, 7]` under a maximizing node
with window `alpha = 0`, `beta = 3`; the first child already forces
`beta ≤ alpha`, so only one child is evaluated. -/
theorem C2_witness :
    (abMaxN (.cons (.leaf "x" 5) (.cons (.leaf "y" 7) .nil)) 0 3 MIN_VALUE).1 =
        abMax (.cons (.leaf "x" 5) (.cons (.leaf "y" 7) .nil)) 0 3 MIN_VALUE ∧
      (3 ≤ (List.foldl (stepMax 3) (0, MIN_VALUE)
          ((toList (.cons (.leaf "x" 5) (.cons (.leaf "y" 7) .nil))).take 1)).1 →
        (abMaxN (.cons (.leaf "x" 5) (.cons (.leaf "y" 7) .nil)) 0 3 MIN_VALUE).2 ≤ 1) :=
  (C2_cutoff_stops_loop (.cons (.leaf "x" 5) (.cons (.leaf "y" 7) .nil)) 0 3 MIN_VALUE 1
    (by decide) (by decide)).1

/-! ### Claim C9: tracing never alters the search outcome -/

theorem abMaxT_fst (cs : NodeList) :
    ∀ (alpha beta v : Int) (s nm : String) (vb : Bool),
      (∀ c ∈ toList cs, ∀ (a' b' : Int) (s' : String) (vb' : Bool),
        (alphaBetaT c a' b' false s' vb').1 = alphaBeta c a' b' false) →
      (abMaxT cs alpha beta v s vb nm).1 = abMax cs alpha beta v := by
  induction cs using NodeList.inductionOn with
  | nil => intro alpha beta v s nm vb _; rfl
  | cons c cs ih =>
    intro alpha beta v s nm vb hcs
    have hc := hcs c (by simp [toList]) alpha beta (indent s) true
    simp only [abMaxT, abMax, hc]
    split
    · split
      · rfl
      · exact ih _ _ _ _ _ _ (fun c' hc' => hcs c' (by simp [toList]; right; exact hc'))
    · split
      · rfl
      · exact ih _ _ _ _ _ _ (fun c' hc' => hcs c' (by simp [toList]; right; exact hc'))

theorem abMinT_fst (cs : NodeList) :
    ∀ (alpha beta v : Int) (s nm : String) (vb : Bool),
      (∀ c ∈ toList cs, ∀ (a' b' : Int) (s' : String) (vb' : Bool),
        (alphaBetaT c a' b' true s' vb').1 = alphaBeta c a' b' true) →
      (abMinT cs alpha beta v s vb nm).1 = abMin cs alpha beta v := by
  induction cs using NodeList.inductionOn with
  | nil => intro alpha beta v s nm vb _; rfl
  | cons c cs ih =>
    intro alpha beta v s nm vb hcs
    have hc := hcs c (by simp [toList]) alpha beta (indent s) true
    simp only [abMinT, abMin, hc]
    split
    · split
      · rfl
      · exact ih _ _ _ _ _ _ (fun c' hc' => hcs c' (by simp [toList]; right; exact hc'))
    · split
      · rfl
      · exact ih _ _ _ _ _ _ (fun c' hc' => hcs c' (by simp [toList]; right; exact hc'))

theorem alphaBetaT_fst_aux :
    ∀ (n : Nat) (t : Node), sizeOf t ≤ n →
      ∀ (alpha beta : Int) (m : Bool) (s : String) (vb : Bool),
        (alphaBetaT t alpha beta m s vb).1 = alphaBeta t alpha beta m := by
  intro n
  induction n with
  | zero =>
    intro t ht
    exact absurd ht (by cases t <;> simp)
  | succ n ih =>
    intro t ht alpha beta m s vb
    match t with
    | .leaf nm e => cases m <;> rfl
    | .node nm cs =>
      have hmem : ∀ c ∈ toList cs, sizeOf c ≤ n := by
        intro c hc
        have h1 := sizeOf_lt_of_mem_toList cs c hc
        have h2 : sizeOf cs < sizeOf (Node.node nm cs) := by simp
        omega
      cases m with
      | true =>
        simp only [alphaBetaT, alphaBeta]
        exact abMaxT_fst cs alpha beta MIN_VALUE s nm vb
          (fun c hc a' b' s' vb' => ih c (hmem c hc) a' b' false s' vb')
      | false =>
        simp only [alphaBetaT, alphaBeta]
        exact abMinT_fst cs alpha beta MAX_VALUE s nm vb
          (fun c hc a' b' s' vb' => ih c (hmem c hc) a' b' true s' vb')

theorem alphaBetaT_fst (t : Node) (alpha beta : Int) (m : Bool) (s : String) (vb : Bool) :
    (alphaBetaT t alpha beta m s vb).1 = alphaBeta t alpha beta m :=
  alphaBetaT_fst_aux (sizeOf t) t (Nat.le_refl _) alpha beta m s vb

/-- C9: the value returned by `alpha_beta` is independent of the
verbose/tracing flag: on every tree, bounds, polarity and indentation the
traced search returns the same integer with `verbose = true` and
`verbose = false`, and this value is exactly `alphaBeta` (the print-free
value recursion) — tracing never alters the search outcome. -/
theorem C9_verbose_independent (t : Node) (alpha beta : Int) (is_max : Bool) (spaces : String) :
    (alphaBetaT t alpha beta is_max spaces true).1 =
        (alphaBetaT t alpha beta is_max spaces false).1 ∧
      (alphaBetaT t alpha beta is_max spaces true).1 = alphaBeta t alpha beta is_max :=
  ⟨by rw [alphaBetaT_fst, alphaBetaT_fst], alphaBetaT_fst t alpha beta is_max spaces true⟩

/-! ### Strong induction on trees -/

theorem sizeOf_child_lt (nm : String) (cs : NodeList) (c : Node) (hc : c ∈ toList cs) :
    sizeOf c < sizeOf (Node.node nm cs) := by
  have h1 := sizeOf_lt_of_mem_toList cs c hc
  have h2 : sizeOf cs < sizeOf (Node.node nm cs) := by simp
  omega

theorem Node.strongInductionAux {P : Node → Prop}
    (step : ∀ t, (∀ c, sizeOf c < sizeOf t → P c) → P t) :
    ∀ (n : Nat) (t : Node), sizeOf t ≤ n → P t := by
  intro n
  induction n with
  | zero =>
    intro t ht
    exact absurd ht (by cases t <;> simp)
  | succ n ih =>
    intro t ht
    exact step t (fun c hc => ih c (by omega))

theorem Node.strongInduction {P : Node → Prop}
    (step : ∀ t, (∀ c, sizeOf c < sizeOf t → P c) → P t) : ∀ t, P t :=
  fun t => Node.strongInductionAux step (sizeOf t) t (Nat.le_refl _)

/-! ### Bounds on the exhaustive evaluation -/

theorem MIN_lt_MAX : MIN_VALUE < MAX_VALUE := by decide

theorem mmMax_ge : ∀ cs, MIN_VALUE ≤ mmMax cs := by
  intro cs
  induction cs using NodeList.inductionOn with
  | nil => simp [mmMax]
  | cons c cs ih => simp only [mmMax]; omega

theorem mmMin_le : ∀ cs, mmMin cs ≤ MAX_VALUE := by
  intro cs
  induction cs using NodeList.inductionOn with
  | nil => simp [mmMin]
  | cons c cs ih => simp only [mmMin]; omega

theorem mmMax_le (cs : NodeList) (H : ∀ c ∈ toList cs, minimax c false ≤ MAX_VALUE) :
    mmMax cs ≤ MAX_VALUE := by
  induction cs using NodeList.inductionOn with
  | nil => simp only [mmMax]; exact le_of_lt MIN_lt_MAX
  | cons c cs ih =>
    have h1 := H c (by simp [toList])
    have h2 := ih (fun c' hc' => H c' (by simp [toList]; right; exact hc'))
    simp only [mmMax]
    omega

theorem mmMin_ge (cs : NodeList) (H : ∀ c ∈ toList cs, MIN_VALUE ≤ minimax c true) :
    MIN_VALUE ≤ mmMin cs := by
  induction cs using NodeList.inductionOn with
  | nil => simp only [mmMin]; exact le_of_lt MIN_lt_MAX
  | cons c cs ih =>
    have h1 := H c (by simp [toList])
    have h2 := ih (fun c' hc' => H c' (by simp [toList]; right; exact hc'))
    simp only [mmMin]
    omega

theorem leavesBoundedL_mem :
    ∀ (cs : NodeList) (c : Node), c ∈ toList cs → leavesBoundedL cs = true →
      leavesBounded c = true := by
  intro cs
  induction cs using NodeList.inductionOn with
  | nil => intro c h; simp [toList] at h
  | cons c' cs ih =>
    intro c hmem hb
    simp only [leavesBoundedL, Bool.and_eq_true] at hb
    simp only [toList, List.mem_cons] at hmem
    rcases hmem with h | h
    · subst h; exact hb.1
    · exact ih c h hb.2

theorem minimax_bounds :
    ∀ (t : Node), leavesBounded t = true →
      ∀ m, MIN_VALUE ≤ minimax t m ∧ minimax t m ≤ MAX_VALUE := by
  apply Node.strongInduction
    (P := fun t => leavesBounded t = true → ∀ m, MIN_VALUE ≤ minimax t m ∧ minimax t m ≤ MAX_VALUE)
  intro t ih hb m
  match t with
  | .leaf nm e =>
    simp only [leavesBounded, Bool.and_eq_true, decide_eq_true_eq] at hb
    cases m <;> exact hb
  | .node nm cs =>
    simp only [leavesBounded] at hb
    have ihc : ∀ c ∈ toList cs, ∀ m', MIN_VALUE ≤ minimax c m' ∧ minimax c m' ≤ MAX_VALUE :=
      fun c hc => ih c (sizeOf_child_lt nm cs c hc) (leavesBoundedL_mem cs c hc hb)
    cases m with
    | true =>
      exact ⟨mmMax_ge cs, mmMax_le cs (fun c hc => (ihc c hc false).2)⟩
    | false =>
      exact ⟨mmMin_ge cs (fun c hc => (ihc c hc true).1), mmMin_le cs⟩

/-! ### Fail-soft approximation: the heart of the pruning-correctness proof -/

/-- Three-sided relation between the value `g` returned by a bounded
search and the exact value `w`: a fail-low result is an upper bound on
`w`, a fail-high result is a lower bound on `w`, and a result strictly
inside the window is exact. -/
def approxAt (g w alpha beta : Int) : Prop :=
  (g ≤ alpha → w ≤ g) ∧ (beta ≤ g → g ≤ w) ∧ (alpha < g → g < beta → g = w)

/-- Pure arithmetic of one maximizing loop step that fires the cut-off:
`ab` is the child's returned value, `wc` its exact value, `X` the exact
value of the remaining siblings. -/
theorem abMaxStep_cut (alpha beta v ab wc X : Int)
    (hab : alpha < beta)
    (hc2 : beta ≤ ab → ab ≤ wc)
    (hcut : beta ≤ (if alpha < max v ab then max v ab else alpha)) :
    v ≤ max v ab ∧
    (max v ab ≤ alpha → max v (max wc X) ≤ max v ab) ∧
    (beta ≤ max v ab → max v ab ≤ max v (max wc X)) ∧
    (alpha < max v ab → max v ab < beta → max v ab = max v (max wc X)) := by
  refine ⟨le_max_left _ _, ?_, ?_, ?_⟩
  · intro h; omega
  · intro h
    by_cases hvab : ab ≤ v
    · omega
    · have := hc2 (by omega)
      omega
  · intro h1 h2; omega

/-- Pure arithmetic of one maximizing loop step that does not fire the
cut-off: `g` is the value of the rest of the loop, whose three-sided
properties hold at the updated window. -/
theorem abMaxStep_go (alpha beta v ab wc X g : Int)
    (hab : alpha < beta)
    (hc1 : ab ≤ alpha → wc ≤ ab)
    (hc3 : alpha < ab → ab < beta → ab = wc)
    (hcut : ¬ beta ≤ (if alpha < max v ab then max v ab else alpha))
    (ihv : max v ab ≤ g)
    (ih1 : g ≤ (if alpha < max v ab then max v ab else alpha) → max (max v ab) X ≤ g)
    (ih2 : beta ≤ g → g ≤ max (max v ab) X)
    (ih3 : (if alpha < max v ab then max v ab else alpha) < g → g < beta →
      g = max (max v ab) X) :
    v ≤ g ∧
    (g ≤ alpha → max v (max wc X) ≤ g) ∧
    (beta ≤ g → g ≤ max v (max wc X)) ∧
    (alpha < g → g < beta → g = max v (max wc X)) := by
  by_cases hcab : alpha < ab
  · have hab_eq : ab = wc := hc3 hcab (by omega)
    refine ⟨by omega, ?_, ?_, ?_⟩
    · intro h; have := ih1 (by omega); omega
    · intro h; have := ih2 h; omega
    · intro h1 h2
      by_cases hga : g ≤ (if alpha < max v ab then max v ab else alpha)
      · have := ih1 hga; omega
      · have := ih3 (by omega) h2; omega
  · have hwcab : wc ≤ ab := hc1 (by omega)
    refine ⟨by omega, ?_, ?_, ?_⟩
    · intro h; have := ih1 (by omega); omega
    · intro h; have := ih2 h; omega
    · intro h1 h2
      by_cases hga : g ≤ (if alpha < max v ab then max v ab else alpha)
      · have := ih1 hga; omega
      · have := ih3 (by omega) h2; omega

/-- Pure arithmetic of one minimizing loop step that fires the cut-off. -/
theorem abMinStep_cut (alpha beta v ab wc X : Int)
    (hab : alpha < beta)
    (hc1 : ab ≤ alpha → wc ≤ ab)
    (hcut : (if min ab v < beta then min ab v else beta) ≤ alpha) :
    min ab v ≤ v ∧
    (min ab v ≤ alpha → min v (min wc X) ≤ min ab v) ∧
    (beta ≤ min ab v → min ab v ≤ min v (min wc X)) ∧
    (alpha < min ab v → min ab v < beta → min ab v = min v (min wc X)) := by
  refine ⟨min_le_right _ _, ?_, ?_, ?_⟩
  · intro h
    by_cases hvab : v ≤ ab
    · omega
    · have := hc1 (by omega)
      omega
  · intro h; omega
  · intro h1 h2; omega

/-- Pure arithmetic of one minimizing loop step that does not fire the
cut-off. -/
theorem abMinStep_go (alpha beta v ab wc X g : Int)
    (hab : alpha < beta)
    (hc2 : beta ≤ ab → ab ≤ wc)
    (hc3 : alpha < ab → ab < beta → ab = wc)
    (hcut : ¬ (if min ab v < beta then min ab v else beta) ≤ alpha)
    (ihv : g ≤ min ab v)
    (ih1 : g ≤ alpha → min (min ab v) X ≤ g)
    (ih2 : (if min ab v < beta then min ab v else beta) ≤ g → g ≤ min (min ab v) X)
    (ih3 : alpha < g → g < (if min ab v < beta then min ab v else beta) →
      g = min (min ab v) X) :
    g ≤ v ∧
    (g ≤ alpha → min v (min wc X) ≤ g) ∧
    (beta ≤ g → g ≤ min v (min wc X)) ∧
    (alpha < g → g < beta → g = min v (min wc X)) := by
  by_cases hcab : ab < beta
  · have hab_eq : ab = wc := hc3 (by omega) hcab
    refine ⟨by omega, ?_, ?_, ?_⟩
    · intro h; have := ih1 h; omega
    · intro h; have := ih2 (by omega); omega
    · intro h1 h2
      by_cases hgb : (if min ab v < beta then min ab v else beta) ≤ g
      · have := ih2 hgb; omega
      · have := ih3 h1 (by omega); omega
  · have hwcab : ab ≤ wc := hc2 (by omega)
    refine ⟨by omega, ?_, ?_, ?_⟩
    · intro h; have := ih1 h; omega
    · intro h; have := ih2 (by omega); omega
    · intro h1 h2
      by_cases hgb : (if min ab v < beta then min ab v else beta) ≤ g
      · have := ih2 hgb; omega
      · have := ih3 h1 (by omega); omega

theorem abMax_approx :
    ∀ (cs : NodeList) (alpha beta v : Int), alpha < beta → MIN_VALUE ≤ v →
      (∀ c ∈ toList cs, ∀ a' b', a' < b' →
        approxAt (alphaBeta c a' b' false) (minimax c false) a' b') →
      v ≤ abMax cs alpha beta v ∧
        approxAt (abMax cs alpha beta v) (max v (mmMax cs)) alpha beta := by
  intro cs
  induction cs using NodeList.inductionOn with
  | nil =>
    intro alpha beta v hab hv _
    refine ⟨le_refl _, ?_, ?_, ?_⟩ <;> simp only [abMax, mmMax] <;> intros <;> omega
  | cons c cs ih =>
    intro alpha beta v hab hv hcs
    obtain ⟨hc1, hc2, hc3⟩ := hcs c (by simp [toList]) alpha beta hab
    set ab := alphaBeta c alpha beta false with habdef
    set wc := minimax c false with hwcdef
    set X := mmMax cs with hXdef
    clear_value ab wc X
    have hunfold : abMax (.cons c cs) alpha beta v =
        if beta ≤ (if alpha < max v ab then max v ab else alpha)
        then max v ab
        else abMax cs (if alpha < max v ab then max v ab else alpha) beta (max v ab) := by
      rw [habdef]
      simp only [abMax]
    have hWdef : mmMax (.cons c cs) = max wc X := by
      rw [hwcdef, hXdef]
      simp only [mmMax]
    rw [hunfold, hWdef]
    clear hunfold hWdef habdef hwcdef hXdef
    by_cases hcut : beta ≤ (if alpha < max v ab then max v ab else alpha)
    · rw [if_pos hcut]
      have h := abMaxStep_cut alpha beta v ab wc X hab hc2 hcut
      exact ⟨h.1, h.2.1, h.2.2.1, h.2.2.2⟩
    · rw [if_neg hcut]
      obtain ⟨ihv, ih1, ih2, ih3⟩ :=
        ih (if alpha < max v ab then max v ab else alpha) beta (max v ab)
          (by omega) (by omega)
          (fun c' hc' => hcs c' (by simp [toList]; right; exact hc'))
      clear ih hcs
      set g := abMax cs (if alpha < max v ab then max v ab else alpha) beta (max v ab)
        with hgdef
      clear_value g
      clear hgdef
      have h := abMaxStep_go alpha beta v ab wc X g hab hc1 hc3 hcut ihv ih1 ih2 ih3
      exact ⟨h.1, h.2.1, h.2.2.1, h.2.2.2⟩

theorem abMin_approx :
    ∀ (cs : NodeList) (alpha beta v : Int), alpha < beta → v ≤ MAX_VALUE →
      (∀ c ∈ toList cs, ∀ a' b', a' < b' →
        approxAt (alphaBeta c a' b' true) (minimax c true) a' b') →
      abMin cs alpha beta v ≤ v ∧
        approxAt (abMin cs alpha beta v) (min v (mmMin cs)) alpha beta := by
  intro cs
  induction cs using NodeList.inductionOn with
  | nil =>
    intro alpha beta v hab hv _
    refine ⟨le_refl _, ?_, ?_, ?_⟩ <;> simp only [abMin, mmMin] <;> intros <;> omega
  | cons c cs ih =>
    intro alpha beta v hab hv hcs
    obtain ⟨hc1, hc2, hc3⟩ := hcs c (by simp [toList]) alpha beta hab
    set ab := alphaBeta c alpha beta true with habdef
    set wc := minimax c true with hwcdef
    set X := mmMin cs with hXdef
    clear_value ab wc X
    have hunfold : abMin (.cons c cs) alpha beta v =
        if (if min ab v < beta then min ab v else beta) ≤ alpha
        then min ab v
        else abMin cs alpha (if min ab v < beta then min ab v else beta) (min ab v) := by
      rw [habdef]
      simp only [abMin]
    have hWdef : mmMin (.cons c cs) = min wc X := by
      rw [hwcdef, hXdef]
      simp only [mmMin]
    rw [hunfold, hWdef]
    clear hunfold hWdef habdef hwcdef hXdef
    by_cases hcut : (if min ab v < beta then min ab v else beta) ≤ alpha
    · rw [if_pos hcut]
      have h := abMinStep_cut alpha beta v ab wc X hab hc1 hcut
      exact ⟨h.1, h.2.1, h.2.2.1, h.2.2.2⟩
    · rw [if_neg hcut]
      obtain ⟨ihv, ih1, ih2, ih3⟩ :=
        ih alpha (if min ab v < beta then min ab v else beta) (min ab v)
          (by omega) (by omega)
          (fun c' hc' => hcs c' (by simp [toList]; right; exact hc'))
      clear ih hcs
      set g := abMin cs alpha (if min ab v < beta then min ab v else beta) (min ab v)
        with hgdef
      clear_value g
      clear hgdef
      have h := abMinStep_go alpha beta v ab wc X g hab hc2 hc3 hcut ihv ih1 ih2 ih3
      exact ⟨h.1, h.2.1, h.2.2.1, h.2.2.2⟩

theorem alphaBeta_approx :
    ∀ (t : Node) (alpha beta : Int) (m : Bool), alpha < beta →
      approxAt (alphaBeta t alpha beta m) (minimax t m) alpha beta := by
  apply Node.strongInduction
    (P := fun t => ∀ alpha beta m, alpha < beta →
      approxAt (alphaBeta t alpha beta m) (minimax t m) alpha beta)
  intro t ih alpha beta m hab
  match t with
  | .leaf nm e =>
    have he1 : alphaBeta (.leaf nm e) alpha beta m = e := by cases m <;> simp [alphaBeta]
    have he2 : minimax (.leaf nm e) m = e := by cases m <;> simp [minimax]
    rw [he1, he2]
    exact ⟨fun _ => le_refl _, fun _ => le_refl _, fun _ _ => rfl⟩
  | .node nm cs =>
    have ihc : ∀ c ∈ toList cs, ∀ a' b' m', a' < b' →
        approxAt (alphaBeta c a' b' m') (minimax c m') a' b' :=
      fun c hc a' b' m' h => ih c (sizeOf_child_lt nm cs c hc) a' b' m' h
    cases m with
    | true =>
      have h := (abMax_approx cs alpha beta MIN_VALUE hab (le_refl _)
        (fun c hc a' b' h' => ihc c hc a' b' false h')).2
      have hW : max MIN_VALUE (mmMax cs) = mmMax cs := max_eq_right (mmMax_ge cs)
      have he1 : alphaBeta (.node nm cs) alpha beta true = abMax cs alpha beta MIN_VALUE := by
        simp only [alphaBeta]
      have he2 : minimax (.node nm cs) true = mmMax cs := by
        simp only [minimax]
      rw [he1, he2, ← hW]
      exact h
    | false =>
      have h := (abMin_approx cs alpha beta MAX_VALUE hab (le_refl _)
        (fun c hc a' b' h' => ihc c hc a' b' true h')).2
      have hW : min MAX_VALUE (mmMin cs) = mmMin cs := min_eq_right (mmMin_le cs)
      have he1 : alphaBeta (.node nm cs) alpha beta false = abMin cs alpha beta MAX_VALUE := by
        simp only [alphaBeta]
      have he2 : minimax (.node nm cs) false = mmMin cs := by
        simp only [minimax]
      rw [he1, he2, ← hW]
      exact h

/-- Central correctness lemma: on a tree whose leaf values lie within
`[MIN_VALUE, MAX_VALUE]`, the root alpha-beta search computes exactly the
exhaustive minimax value. -/
theorem alphaBeta_exact (t : Node) (m : Bool) (hb : leavesBounded t = true) :
    alphaBetaRoot t m = minimax t m := by
  show alphaBeta t MIN_VALUE MAX_VALUE m = minimax t m
  obtain ⟨h1, h2, h3⟩ := alphaBeta_approx t MIN_VALUE MAX_VALUE m MIN_lt_MAX
  obtain ⟨hb1, hb2⟩ := minimax_bounds t hb m
  rcases le_or_lt (alphaBeta t MIN_VALUE MAX_VALUE m) MIN_VALUE with h | h
  · have := h1 h; omega
  · rcases le_or_lt MAX_VALUE (alphaBeta t MIN_VALUE MAX_VALUE m) with h' | h'
    · have := h2 h'; omega
    · exact h3 h h'

/-! ### Claim C1 -/

/-- C1 is refuted as stated ("for any tree"): leaf values are
unconstrained signed integers, and on a maximizing root with leaves
`MAX_VALUE` and `MAX_VALUE + 5` the first child raises `alpha` to
`MAX_VALUE = beta`, the cut-off fires, the second leaf is never seen, and
the root returns `MAX_VALUE` while the exhaustive evaluation returns
`MAX_VALUE + 5`. -/
theorem C1_counterexample :
    alphaBetaRoot
        (.node "r" (.cons (.leaf "r-a" MAX_VALUE) (.cons (.leaf "r-b" (MAX_VALUE + 5)) .nil)))
        true ≠
      minimax
        (.node "r" (.cons (.leaf "r-a" MAX_VALUE) (.cons (.leaf "r-b" (MAX_VALUE + 5)) .nil)))
        true := by decide

/-- C1 amended: for any tree whose leaf values all lie within
`[MIN_VALUE, MAX_VALUE]` (in particular any tree the generator's random
policy or any int32-valued sequence produces), `alpha_beta_root` — which
calls `alpha_beta` with `alpha = MIN_VALUE`, `beta = MAX_VALUE` — returns
exactly the minimax value that the exhaustive min/max evaluation with no
pruning returns. -/
theorem C1_root_eq_minimax (t : Node) (is_max : Bool) (h : leavesBounded t = true) :
    alphaBetaRoot t is_max = minimax t is_max :=
  alphaBeta_exact t is_max h

/-- Witness for C1 on a concrete two-leaf maximizing tree. -/
theorem C1_witness :
    leavesBounded (.node "w" (.cons (.leaf "w-a" 1) (.cons (.leaf "w-b" 2) .nil))) = true ∧
      alphaBetaRoot (.node "w" (.cons (.leaf "w-a" 1) (.cons (.leaf "w-b" 2) .nil))) true =
        minimax (.node "w" (.cons (.leaf "w-a" 1) (.cons (.leaf "w-b" 2) .nil))) true :=
  ⟨by decide,
    C1_root_eq_minimax (.node "w" (.cons (.leaf "w-a" 1) (.cons (.leaf "w-b" 2) .nil))) true
      (by decide)⟩

/-! ### Claim C10: the search result is an actual leaf value -/

theorem wellFormedL_mem :
    ∀ (cs : NodeList) (c : Node), c ∈ toList cs → wellFormedL cs = true →
      wellFormed c = true := by
  intro cs
  induction cs using NodeList.inductionOn with
  | nil => intro c h; simp [toList] at h
  | cons c' cs ih =>
    intro c hmem hw
    simp only [wellFormedL, Bool.and_eq_true] at hw
    simp only [toList, List.mem_cons] at hmem
    rcases hmem with h | h
    · subst h; exact hw.1
    · exact ih c h hw.2

theorem leavesStrictL_mem :
    ∀ (cs : NodeList) (c : Node), c ∈ toList cs → leavesStrictL cs = true →
      leavesStrict c = true := by
  intro cs
  induction cs using NodeList.inductionOn with
  | nil => intro c h; simp [toList] at h
  | cons c' cs ih =>
    intro c hmem hs
    simp only [leavesStrictL, Bool.and_eq_true] at hs
    simp only [toList, List.mem_cons] at hmem
    rcases hmem with h | h
    · subst h; exact hs.1
    · exact ih c h hs.2

theorem leavesBoundedL_of :
    ∀ (cs : NodeList), (∀ c ∈ toList cs, leavesBounded c = true) →
      leavesBoundedL cs = true := by
  intro cs
  induction cs using NodeList.inductionOn with
  | nil => intro _; rfl
  | cons c cs ih =>
    intro H
    simp only [leavesBoundedL, Bool.and_eq_true]
    exact ⟨H c (by simp [toList]),
      ih (fun c' hc' => H c' (by simp [toList]; right; exact hc'))⟩

theorem leavesStrict_bounded :
    ∀ (t : Node), leavesStrict t = true → leavesBounded t = true := by
  apply Node.strongInduction
    (P := fun t => leavesStrict t = true → leavesBounded t = true)
  intro t ih hs
  match t with
  | .leaf nm e =>
    simp only [leavesStrict, Bool.and_eq_true, decide_eq_true_eq] at hs
    simp only [leavesBounded, Bool.and_eq_true, decide_eq_true_eq]
    omega
  | .node nm cs =>
    simp only [leavesStrict] at hs
    simp only [leavesBounded]
    exact leavesBoundedL_of cs
      (fun c hc => ih c (sizeOf_child_lt nm cs c hc) (leavesStrictL_mem cs c hc hs))

theorem mmMax_mem :
    ∀ (cs : NodeList),
      (∀ c ∈ toList cs, minimax c false ∈ leafVals c ∧ MIN_VALUE ≤ minimax c false) →
      mmMax cs ∈ leafValsL cs ∨ (cs = .nil ∧ mmMax cs = MIN_VALUE) := by
  intro cs
  induction cs using NodeList.inductionOn with
  | nil => intro _; exact Or.inr ⟨rfl, rfl⟩
  | cons c cs ih =>
    intro H
    have hc := H c (by simp [toList])
    have hun : mmMax (.cons c cs) = max (minimax c false) (mmMax cs) := by
      simp only [mmMax]
    have hlv : leafValsL (.cons c cs) = leafVals c ++ leafValsL cs := by
      simp only [leafValsL]
    rcases ih (fun c' hc' => H c' (by simp [toList]; right; exact hc')) with hm | ⟨hnil, hmm⟩
    · left
      rw [hun, hlv]
      rcases max_choice (minimax c false) (mmMax cs) with h | h
      · rw [h]; exact List.mem_append_left _ hc.1
      · rw [h]; exact List.mem_append_right _ hm
    · left
      rw [hun, hlv, hmm, max_eq_left hc.2]
      exact List.mem_append_left _ hc.1

theorem mmMin_mem :
    ∀ (cs : NodeList),
      (∀ c ∈ toList cs, minimax c true ∈ leafVals c ∧ minimax c true ≤ MAX_VALUE) →
      mmMin cs ∈ leafValsL cs ∨ (cs = .nil ∧ mmMin cs = MAX_VALUE) := by
  intro cs
  induction cs using NodeList.inductionOn with
  | nil => intro _; exact Or.inr ⟨rfl, rfl⟩
  | cons c cs ih =>
    intro H
    have hc := H c (by simp [toList])
    have hun : mmMin (.cons c cs) = min (minimax c true) (mmMin cs) := by
      simp only [mmMin]
    have hlv : leafValsL (.cons c cs) = leafVals c ++ leafValsL cs := by
      simp only [leafValsL]
    rcases ih (fun c' hc' => H c' (by simp [toList]; right; exact hc')) with hm | ⟨hnil, hmm⟩
    · left
      rw [hun, hlv]
      rcases min_choice (minimax c true) (mmMin cs) with h | h
      · rw [h]; exact List.mem_append_left _ hc.1
      · rw [h]; exact List.mem_append_right _ hm
    · left
      rw [hun, hlv, hmm, min_eq_left hc.2]
      exact List.mem_append_left _ hc.1

theorem minimax_mem :
    ∀ (t : Node), wellFormed t = true → leavesBounded t = true →
      ∀ m, minimax t m ∈ leafVals t := by
  apply Node.strongInduction
    (P := fun t => wellFormed t = true → leavesBounded t = true →
      ∀ m, minimax t m ∈ leafVals t)
  intro t ih hw hb m
  match t with
  | .leaf nm e => cases m <;> simp [minimax, leafVals]
  | .node nm (.nil) => exact absurd hw (by simp [wellFormed])
  | .node nm (.cons c0 cs0) =>
    have hwl : wellFormedL (.cons c0 cs0) = true := by
      simp only [wellFormed] at hw
      simp only [wellFormedL]
      exact hw
    have hbl : leavesBoundedL (.cons c0 cs0) = true := by
      simp only [leavesBounded] at hb
      exact hb
    have hchild : ∀ c ∈ toList (NodeList.cons c0 cs0), ∀ m',
        minimax c m' ∈ leafVals c ∧
          MIN_VALUE ≤ minimax c m' ∧ minimax c m' ≤ MAX_VALUE := by
      intro c hc m'
      have hwc := wellFormedL_mem _ c hc hwl
      have hbc := leavesBoundedL_mem _ c hc hbl
      exact ⟨ih c (sizeOf_child_lt nm _ c hc) hwc hbc m',
        (minimax_bounds c hbc m').1, (minimax_bounds c hbc m').2⟩
    cases m with
    | true =>
      have he1 : minimax (.node nm (.cons c0 cs0)) true = mmMax (.cons c0 cs0) := by
        simp only [minimax]
      have he2 : leafVals (.node nm (.cons c0 cs0)) = leafValsL (.cons c0 cs0) := by
        simp only [leafVals]
      rw [he1, he2]
      rcases mmMax_mem (.cons c0 cs0)
          (fun c hc => ⟨(hchild c hc false).1, (hchild c hc false).2.1⟩) with h | ⟨h, _⟩
      · exact h
      · exact absurd h (by simp)
    | false =>
      have he1 : minimax (.node nm (.cons c0 cs0)) false = mmMin (.cons c0 cs0) := by
        simp only [minimax]
      have he2 : leafVals (.node nm (.cons c0 cs0)) = leafValsL (.cons c0 cs0) := by
        simp only [leafVals]
      rw [he1, he2]
      rcases mmMin_mem (.cons c0 cs0)
          (fun c hc => ⟨(hchild c hc true).1, (hchild c hc true).2.2⟩) with h | ⟨h, _⟩
      · exact h
      · exact absurd h (by simp)

/-- C10: for every well-formed tree (every internal node has at least one
child) whose leaf values all lie strictly between `MIN_VALUE` and
`MAX_VALUE`, the value returned by `alpha_beta_root` is the `eval` of
some leaf of the tree — never a fabricated or sentinel value. -/
theorem C10_result_is_leaf_value (t : Node) (is_max : Bool)
    (hw : wellFormed t = true) (hs : leavesStrict t = true) :
    alphaBetaRoot t is_max ∈ leafVals t := by
  rw [alphaBeta_exact t is_max (leavesStrict_bounded t hs)]
  exact minimax_mem t hw (leavesStrict_bounded t hs) is_max

/-- Witness for C10 on a concrete well-formed strict-valued tree. -/
theorem C10_witness :
    alphaBetaRoot (.node "w" (.cons (.leaf "w-a" 4) (.cons (.leaf "w-b" 6) .nil))) true ∈
      leafVals (.node "w" (.cons (.leaf "w-a" 4) (.cons (.leaf "w-b" 6) .nil))) :=
  C10_result_is_leaf_value (.node "w" (.cons (.leaf "w-a" 4) (.cons (.leaf "w-b" 6) .nil))) true
    (by decide) (by decide)

/-! ### Claim C8: the concrete depth-2 cut-off example -/

/-- The tree `gen_tree` builds from `depth = 2`, `branching_factor = 2`,
root name `"r"`, `leaf_values = [3, 5, 2, 9]`, with a maximizing root and
minimizing depth-1 nodes. -/
def cutoffTree : Node :=
  .node "r"
    (.cons (.node "r-a" (.cons (.leaf "r-a-A" 3) (.cons (.leaf "r-a-B" 5) .nil)))
      (.cons (.node "r-b" (.cons (.leaf "r-b-A" 2) (.cons (.leaf "r-b-B" 9) .nil)))
        .nil))

/-- C8: on the depth-2, branching-2 tree generated from `[3, 5, 2, 9]`
(maximizing root), `alpha_beta_root` returns 3; the traced root search
visits only the leaves `3, 5, 2` — fewer than `2 ^ 2` leaves, and the
leaf `9` is never visited — because a cut-off (the source's min-branch
`break`, printed as `ALPHA cut-off`, fired by `beta <= alpha` with
`alpha = 3`, `beta = 2`) occurs while exploring the second min node. -/
theorem C8_depth2_cutoff :
    genTree 2 true 2 "r" [3, 5, 2, 9] = .ok (cutoffTree, []) ∧
    alphaBetaRoot cutoffTree true = 3 ∧
    visitedLeafEvals (alphaBetaRootT cutoffTree true).2 = [3, 5, 2] ∧
    (visitedLeafEvals (alphaBetaRootT cutoffTree true).2).length < 2 ^ 2 ∧
    (9 : Int) ∉ visitedLeafEvals (alphaBetaRootT cutoffTree true).2 ∧
    TraceEvent.alphaCut "  " 3 2 ∈ (alphaBetaRootT cutoffTree true).2 :=
  ⟨rfl, rfl, rfl, by decide, by decide, by decide⟩

end AlphaBeta
